import Mathlib

/-!
Verification of the BISSO E350 asset-staging pipeline scripts.

The Python sources under scrutiny are shallowly embedded here:
filesystems are association lists from relative paths (lists of
segments) to file contents, `os.walk` loops become folds over a
snapshot of the file list (faithful because `os.walk` snapshots each
directory listing before the loop body runs), and external gzip
compression is an arbitrary function parameter.  Character-level
operations (the bundle marker regex, `str.strip`, path sanitization)
are embedded over `List Char`.
-/

/-! ### Python string primitives -/

/-- The whitespace class stripped by Python `str.strip()`. -/
def isPySpace (c : Char) : Bool :=
  c = ' ' || c = '\t' || c = '\n' || c = '\r' || c = '\x0b' || c = '\x0c'

/-- Python `str.lstrip()` over `List Char`. -/
def lstrip (s : List Char) : List Char := s.dropWhile isPySpace

/-- Python `str.rstrip()` over `List Char`. -/
def rstrip (s : List Char) : List Char := (s.reverse.dropWhile isPySpace).reverse

/-- Python `str.strip()` over `List Char`. -/
def pstrip (s : List Char) : List Char := rstrip (lstrip s)

/-- Python substring membership `pat in s` over `List Char`. -/
def hasSub (pat : List Char) : List Char → Bool
  | [] => pat.isEmpty
  | c :: t => pat.isPrefixOf (c :: t) || hasSub pat t

/-! ### Filesystem model

A deployment (or archive) tree is a list of files, each a relative
path (list of segments, as produced by `os.path.relpath(...).split`)
paired with its content.  `baseName` is the `file` variable of the
`os.walk` loops (the file's base name). -/

abbrev RPath := List String

abbrev FS := List (RPath × String)

def baseName (p : RPath) : String := p.getLastD ""

/-- Python `s.endswith(suf)`. -/
def sfx (suf s : String) : Bool := List.isSuffixOf suf.toList s.toList

/-- Python `s[:-n]` (for `n ≤ len(s)`). -/
def strDropRight (s : String) (n : Nat) : String :=
  ⟨s.toList.take (s.toList.length - n)⟩

/-- Python `s.replace(".gz", "")`: every occurrence removed, left to right. -/
def removeGzChars : List Char → List Char
  | '.' :: 'g' :: 'z' :: t => removeGzChars t
  | c :: t => c :: removeGzChars t
  | [] => []

def removeGzAll (s : String) : String := ⟨removeGzChars s.toList⟩

/-- `os.path.exists` for our association-list filesystem. -/
def hasPath (fs : FS) (p : RPath) : Bool := fs.any (fun e => decide (e.1 = p))

/-- Content of the file at `p`, if present. -/
def lookupFS (fs : FS) (p : RPath) : Option String :=
  (fs.find? (fun e => decide (e.1 = p))).map (fun e => e.2)

/-- `os.remove` (no-op when absent, matching guarded removals). -/
def removePath (fs : FS) (p : RPath) : FS := fs.filter (fun e => decide (e.1 ≠ p))

/-- Writing a file at `p`: an existing file at that exact path is replaced.
This is also the file-destination semantics of `shutil.move` / `shutil.copy2`
(`os.rename` and the `copy2` fallback both replace an existing plain file). -/
def setFile (fs : FS) (p : RPath) (c : String) : FS := removePath fs p ++ [(p, c)]

/-- `path + ".gz"`: same directory, base name suffixed. -/
def gzSibling (p : RPath) : RPath := p.dropLast ++ [baseName p ++ ".gz"]

/-- `path[:-3]`: the uncompressed sibling of a `.gz` path. -/
def stripGzPath (p : RPath) : RPath := p.dropLast ++ [strDropRight (baseName p) 3]

/-! ### src/cleanup_assets.py -/

/-- `cleanup_files` (src/cleanup_assets.py, lines 6-29): removes the
VISUAL_MOCKUP.html mockup unconditionally, then removes every plain file
whose `.gz` sibling exists. -/
def cleanup_files (fs : FS) : FS :=
  let fs1 := removePath fs ["VISUAL_MOCKUP.html"]
  fs1.foldl (fun acc e =>
    if sfx ".gz" (baseName e.1) then removePath acc (stripGzPath e.1) else acc) fs1

/-! ### src/final_cleanup.py -/

/-- Keep list of `finalize_filesystem` (src/final_cleanup.py, lines 35-39). -/
def keepF : List String :=
  ["bundle.js", "bundle.js.gz", "bundle.css", "bundle.css.gz",
   "index.html", "index.html.gz", "favicon.ico"]

/-- The removal extensions of `finalize_filesystem`'s second pass. -/
def finalizeRemovable (b : String) : Bool :=
  sfx ".js" b || sfx ".js.gz" b || sfx ".css" b || sfx ".css.gz" b

/-- `finalize_filesystem` (src/final_cleanup.py, lines 7-71): first pass
gzips every `.html` file lacking a `.gz` sibling (`g` is the external gzip
compressor); second pass removes every `.js`/`.js.gz`/`.css`/`.css.gz` file
whose base name is not in the keep list, and every non-index `.html` whose
`.gz` sibling exists. -/
def finalize_filesystem (g : String → String) (fs : FS) : FS :=
  let fs1 := fs.foldl (fun acc e =>
    if sfx ".html" (baseName e.1) && !(hasPath acc (gzSibling e.1)) then
      acc ++ [(gzSibling e.1, g e.2)]
    else acc) fs
  fs1.foldl (fun acc e =>
    if decide (baseName e.1 ∈ keepF) then acc
    else
      let acc2 := if finalizeRemovable (baseName e.1) then removePath acc e.1 else acc
      if sfx ".html" (baseName e.1) && !(decide (baseName e.1 = "index.html")) &&
          hasPath acc2 (gzSibling e.1) then
        removePath acc2 e.1
      else acc2) fs1

/-! ### src/gzip_assets.py -/

/-- Filesystem with modification times, for the compressor: each entry is
(path, content, mtime). -/
abbrev GFS := List (RPath × String × Nat)

/-- The compressor's extension filter (src/gzip_assets.py, line 11). -/
def gzCond (b : String) : Bool :=
  (sfx ".js" b || sfx ".css" b || sfx ".html" b) && !(sfx ".gz" b)

def removeG (fs : GFS) (p : RPath) : GFS := fs.filter (fun e => decide (e.1 ≠ p))

def setG (fs : GFS) (p : RPath) (c : String) (m : Nat) : GFS := removeG fs p ++ [(p, c, m)]

/-- `gzip_files` (src/gzip_assets.py, lines 8-22): every `.js`/`.css`/`.html`
file is compressed to its `.gz` sibling; `g` is the gzip compressor, `now`
the mtime stamped on the written sibling.  The second component records the
files that were (re)compressed, mirroring the per-file "Gzipping" report. -/
def gzStep (g : String → String) (now : Nat) (acc : GFS × List RPath)
    (e : RPath × String × Nat) : GFS × List RPath :=
  if gzCond (baseName e.1) then
    (setG acc.1 (gzSibling e.1) (g e.2.1) now, acc.2 ++ [e.1])
  else acc

def gzip_files (g : String → String) (now : Nat) (fs : GFS) : GFS × List RPath :=
  fs.foldl (gzStep g now) (fs, [])

/-! ### src/optimize_assets.py: restore_files, move_sources_to_src -/

/-- `restore_files` (src/optimize_assets.py, lines 7-32): recreates each
missing plain file from its `.gz` sibling (`gu` is the gzip decompressor),
then copies from the archive tree every file missing at its relative path.
The state is (deployment tree, archive tree); the archive is read-only here
(`shutil.copy2`). -/
def restoreGzStep (gu : String → String) (acc : FS) (e : RPath × String) : FS :=
  if sfx ".gz" (baseName e.1) then
    if hasPath acc (stripGzPath e.1) then acc
    else acc ++ [(stripGzPath e.1, gu e.2)]
  else acc

def restoreCopyStep (acc : FS) (e : RPath × String) : FS :=
  if hasPath acc e.1 then acc else acc ++ [e]

def restore_files (gu : String → String) (st : FS × FS) : FS × FS :=
  let d1 := st.1.foldl (restoreGzStep gu) st.1
  let d2 := st.2.foldl restoreCopyStep d1
  (d2, st.2)

/-- Keep list of `move_sources_to_src` (src/optimize_assets.py, lines 228-233). -/
def keepO : List String :=
  ["bundle.css", "bundle.css.gz", "bundle.js", "bundle.js.gz",
   "index.html", "index.html.gz", "favicon.ico"]

/-- The extension test of `move_sources_to_src` (line 250). -/
def moveExtOk (b : String) : Bool :=
  sfx ".js" b || sfx ".css" b ||
    (sfx ".gz" b && (sfx ".js" (strDropRight b 3) || sfx ".css" (strDropRight b 3)))

/-- The full per-file guard of `move_sources_to_src` (lines 238-250):
not in the keep list, not a gzipped keep file, not under `pages/`,
and a source (or gzipped source) extension. -/
def moveCond (p : RPath) : Bool :=
  !(decide (baseName p ∈ keepO)) && !(decide (removeGzAll (baseName p) ∈ keepO)) &&
    !(decide ("pages" ∈ p)) && moveExtOk (baseName p)

/-- `move_sources_to_src` (src/optimize_assets.py, lines 223-262): moves every
matching file from the deployment tree (first component) to the archive tree
(second component), preserving its relative path.  `shutil.move` replaces an
existing file at the destination. -/
def moveStep (acc : FS × FS) (e : RPath × String) : FS × FS :=
  if moveCond e.1 then (removePath acc.1 e.1, setFile acc.2 e.1 e.2) else acc

def move_sources_to_src (st : FS × FS) : FS × FS :=
  st.1.foldl moveStep st

/-! ### src/restore_data.py -/

/-- `restore_data` (src/restore_data.py, lines 7-37): moves every file from
the archive tree back into the deployment tree, unconditionally
(`shutil.move` with no existence check at the destination). -/
def restore_data (st : FS × FS) : FS × FS :=
  st.2.foldl (fun acc e => (setFile acc.1 e.1 e.2, removePath acc.2 e.1)) st

/-! ### src/bundle_assets_draft.py: ordering -/

/-- The JS priority list of `bundle_files` (src/bundle_assets_draft.py, line 29). -/
def priorityL : List String := ["utils.js", "toast.js", "state.js", "theme.js"]

/-- `get_priority` (src/bundle_assets_draft.py, lines 31-35). -/
def get_priority (n : String) : Nat :=
  if n ∈ priorityL then priorityL.indexOf n else 999

/-- Python string `<` (code-point lexicographic). -/
def lexLt : List Char → List Char → Bool
  | [], [] => false
  | [], _ :: _ => true
  | _ :: _, [] => false
  | a :: as, b :: bs => if a < b then true else if b < a then false else lexLt as bs

def strLe (a b : String) : Bool := !(lexLt b.toList a.toList)

/-- Stable insertion: a new element goes after every element that compares
less-or-equal, so equal keys keep their prior order (Python `list.sort` is
stable). -/
def insertStable (le : α → α → Bool) (x : α) : List α → List α
  | [] => [x]
  | b :: bs => if le b x then b :: insertStable le x bs else x :: b :: bs

/-- A stable ascending sort, processing elements in their given order
(extensionally Python `list.sort(key=...)`). -/
def pysort (le : α → α → Bool) (l : List α) : List α :=
  l.foldl (fun acc x => insertStable le x acc) []

/-- The ordering performed by `bundle_files` on a `.js` file set
(src/bundle_assets_draft.py, lines 25-39): first `files_to_bundle.sort()`
(lexicographic), then the stable `sort(key=get_priority)`.  Files are
represented by their base names: the code sorts full paths and ranks
`os.path.basename(path)`, and in the claim's scenario all inputs share one
directory, so full-path lexicographic order coincides with base-name
order. -/
def bundle_files_order (names : List String) : List String :=
  pysort (fun a b => decide (get_priority a ≤ get_priority b)) (pysort strLe names)

/-! ### src/recover_assets.py: the Unbundler

`unbundle` reads the bundle and runs
`re.split(r'/\* (.*?) \*/', content)`.  The regex is compiled without
DOTALL, so the lazily captured group cannot cross a newline; matches are
leftmost.  The scanner below implements exactly that semantics over
`List Char`. -/

/-- The opening characters of a bundle boundary marker. -/
def openPat : List Char := ['/', '*', ' ']

/-- The closing characters of a bundle boundary marker. -/
def closePat : List Char := [' ', '*', '/']

/-- The lazy capture of the marker regex: stop at the first occurrence of
the closing delimiter; a newline aborts the match attempt.  Returns the
captured name and the rest after the closing delimiter. -/
def matchCapture : List Char → Option (List Char × List Char)
  | [] => none
  | c :: s =>
    if c = ' ' ∧ s.take 2 = ['*', '/'] then some ([], s.drop 2)
    else if c = '\n' then none
    else (matchCapture s).map (fun q => (c :: q.1, q.2))

/-- Attempt to match a full marker at the head of the input. -/
def tryMarker (s : List Char) : Option (List Char × List Char) :=
  if s.take 3 = openPat then matchCapture (s.drop 3) else none

/-- Leftmost marker match: (text before the match, captured name, rest). -/
def findMarker : List Char → Option (List Char × List Char × List Char)
  | [] => none
  | c :: s =>
    match tryMarker (c :: s) with
    | some (cap, rem) => some ([], cap, rem)
    | none =>
      match findMarker s with
      | some (pre, cap, rem) => some (c :: pre, cap, rem)
      | none => none

/-- The split, with explicit fuel (every match consumes at least six
characters, so fuel equal to the input length always suffices). -/
def reSplitAux : Nat → List Char → List (List Char)
  | 0, s => [s]
  | k + 1, s =>
    match findMarker s with
    | none => [s]
    | some (pre, cap, rem) => pre :: cap :: reSplitAux k rem

/-- Python `re.split(r'/\* (.*?) \*/', content)` (src/recover_assets.py,
line 24): alternating list of unmatched text and captured names. -/
def reSplit (s : List Char) : List (List Char) := reSplitAux s.length s

/-- The filename "validation" of `unbundle` (src/recover_assets.py, lines
43-45): when the name contains ".." or ":", every ":" is removed and the
result stripped; ".." segments are left intact. -/
def sanitize (n : List Char) : List Char :=
  if hasSub ['.', '.'] n || hasSub [':'] n then
    pstrip (n.filter (fun c => decide (c ≠ ':')))
  else n

/-- Pair up the (filename, content) parts of the split: the loop
`for i in range(1, len(parts), 2)`. -/
def collectEntries : List (List Char) → List (List Char × List Char)
  | n :: c :: rest => (n, c) :: collectEntries rest
  | _ => []

/-- `unbundle` (src/recover_assets.py, lines 7-53): splits the bundle at the
markers and returns the writes it performs as (path relative to the
destination root, written content) pairs; each written content is the
parsed segment stripped plus one newline.  An input with fewer than one
complete marker/content pair produces no writes. -/
def unbundle (b : List Char) : List (List Char × List Char) :=
  let parts := reSplit b
  if parts.length < 3 then []
  else (collectEntries parts.tail).map (fun q => (sanitize (pstrip q.1), pstrip q.2 ++ ['\n']))

/-! ### src/optimize_assets.py: bundle_assets (the CSS bundle loop) -/

/-- One bundle entry as written by the CSS loop of `bundle_assets`
(src/optimize_assets.py, lines 48-57): a newline, the boundary marker
carrying the relative path, a newline, then the raw file content. -/
def cssEntry (n c : List Char) : List Char :=
  '\n' :: (openPat ++ n ++ closePat ++ '\n' :: c)

/-- `bundle_assets` restricted to the files present on disk (missing files
are skipped with a warning and contribute nothing): the bundle is the
concatenation of the entries in list order. -/
def bundle_assets : List (List Char × List Char) → List Char
  | [] => []
  | f :: fs => cssEntry f.1 f.2 ++ bundle_assets fs

/-- The parts of `reSplit (bundle_assets files)` after the first marker;
used to state the split characterization. -/
def tailSegs : List Char → List (List Char × List Char) → List (List Char)
  | c, [] => ['\n' :: c]
  | c, g :: gs => ('\n' :: c ++ ['\n']) :: g.1 :: tailSegs g.2 gs

/-- Well-formedness of a marker name: no surrounding whitespace, no
newline, no closing-delimiter substring, and nothing the sanitizer
rewrites. -/
def goodName (n : List Char) : Prop :=
  pstrip n = n ∧ '\n' ∉ n ∧ hasSub closePat n = false ∧
    hasSub ['.', '.'] n = false ∧ hasSub [':'] n = false

/-- A bundle entry that round-trips: good name, and content free of the
marker-opening syntax. -/
def goodEntry (q : List Char × List Char) : Prop :=
  goodName q.1 ∧ hasSub openPat q.2 = false

instance (n : List Char) : Decidable (goodName n) := by
  unfold goodName
  exact inferInstance

instance (q : List Char × List Char) : Decidable (goodEntry q) := by
  unfold goodEntry
  exact inferInstance

/-! ### Path-escape judgement (for claim C2) -/

/-- Split a decoded path on `/` and `\` separators. -/
def splitSlashes : List Char → List (List Char)
  | [] => [[]]
  | c :: t =>
    match splitSlashes t with
    | [] => [[]]
    | s :: rest => if c = '/' ∨ c = '\\' then [] :: s :: rest else (c :: s) :: rest

/-- Depth tracking while resolving segments under a root: `..` goes up,
`.` and empty segments stay, anything else goes down; the path escapes
when the depth would go above the root. -/
def segDepth : Int → List (List Char) → Bool
  | _, [] => false
  | d, seg :: rest =>
    if seg = ['.', '.'] then (if d ≤ 0 then true else segDepth (d - 1) rest)
    else if seg = [] ∨ seg = ['.'] then segDepth d rest
    else segDepth (d + 1) rest

/-- A relative name escapes the destination root when resolving its
segments walks above the root. -/
def escapesRoot (name : List Char) : Bool := segDepth 0 (splitSlashes name)

/-! ### Theorems: concrete evaluations for C1, C4, C5, C6, C7, C8 -/

/-- Claim C1: a prune pass must refuse to delete a file when no surviving
representation (compressed sibling, bundle, archive copy) exists.  The code
has no such check: `finalize_filesystem` deletes `shared/foo.js` although
the tree holds no `.gz` sibling, no bundle and no archive copy, and
`cleanup_files` deletes VISUAL_MOCKUP.html unconditionally — in both cases
the only representation is destroyed. -/
theorem C1_last_copy_deleted :
    finalize_filesystem (fun s => s) [(["shared", "foo.js"], "x")] = [] ∧
    cleanup_files [(["VISUAL_MOCKUP.html"], "m")] = [] := by decide

/-- Claim C4 counterexample: with `shared/utils.js` present in both trees,
`move_sources_to_src` is not blocked: the pre-existing archive file
(content "old") is silently replaced by the deployment file (content "new"),
and the source is removed from the deployment tree — contradicting
"the move is blocked and reported, the pre-existing destination file is
never replaced, and the source file is left in place". -/
theorem C4_counterexample :
    move_sources_to_src
        ([(["shared", "utils.js"], "new")], [(["shared", "utils.js"], "old")])
      = ([], [(["shared", "utils.js"], "new")]) ∧ ("old" : String) ≠ "new" := by decide

/-- Claim C5 counterexample: `restore_data` moves `x.js` from the archive
over an already-present plain file, replacing content "new" with "old" —
contradicting "that file is left untouched and not overwritten". -/
theorem C5_counterexample :
    restore_data ([(["x.js"], "new")], [(["x.js"], "old")])
      = ([(["x.js"], "old")], []) ∧ ("old" : String) ≠ "new" := by decide

/-- Claim C6: files under `pages/` must never be removed from the deployment
root, yet `finalize_filesystem` (which has no `pages/` exemption) deletes
`pages/dashboard.js`. -/
theorem C6_pages_file_removed :
    finalize_filesystem (fun s => s) [(["pages", "dashboard.js"], "d")] = [] := by decide

/-- Claim C7: with priority table `utils, toast, state, theme` and inputs
zeta.js, utils.js, alpha.js, theme.js, the bundler's entry order is
utils.js, theme.js, alpha.js, zeta.js: ranked names first in table order,
unranked names after in lexicographic order (the sort is stable). -/
theorem C7_bundle_order :
    bundle_files_order ["zeta.js", "utils.js", "alpha.js", "theme.js"]
      = ["utils.js", "theme.js", "alpha.js", "zeta.js"] := by decide

/-- Claim C8 counterexample: `a.js.gz` already exists and is newer than its
source (mtime 5 > 0), yet `gzip_files` regenerates it (the report lists
`a.js`, and the sibling is rewritten with a fresh mtime), so the operation
is not a no-op. -/
theorem C8_counterexample :
    gzip_files (fun s => s) 9 [(["a.js"], "x", 0), (["a.js.gz"], "stale", 5)]
      = ([(["a.js"], "x", 0), (["a.js.gz"], "x", 9)], [["a.js"]]) ∧ 5 > 0 := by decide

/-- Claim C2: a marker path containing a traversal segment must be rejected
or rewritten before any write.  The code's validation only removes ":" and
strips whitespace, so the marker `../secret` passes through unchanged and
the write target `DATA_DIR/../secret` resolves outside the destination
root — the code contradicts its own "prevent path traversal" comment. -/
theorem C2_traversal_not_prevented :
    unbundle ("/* ../secret */\nX".toList)
      = [("../secret".toList, "X\n".toList)] ∧
    escapesRoot ("../secret".toList) = true := by decide

/-- Claim C9 counterexample: a whitespace-only segment is written as the
single character "\n", a file whose content does begin with whitespace —
refuting "never begins with whitespace" as stated. -/
theorem C9_counterexample :
    unbundle ("/* x.css */\n \n".toList) = [("x.css".toList, "\n".toList)] ∧
    List.head? ("\n".toList) = some '\n' ∧ isPySpace '\n' = true := by decide

/-! ### Helper lemmas: lookups and removals -/

theorem hasPath_iff {fs : FS} {p : RPath} : hasPath fs p = true ↔ ∃ c, (p, c) ∈ fs := by
  unfold hasPath
  simp only [List.any_eq_true, decide_eq_true_eq]
  constructor
  · rintro ⟨e, he, rfl⟩
    exact ⟨e.2, by simpa using he⟩
  · rintro ⟨c, hc⟩
    exact ⟨(p, c), hc, rfl⟩

theorem hasPath_append (fs fs' : FS) (p : RPath) :
    hasPath (fs ++ fs') p = (hasPath fs p || hasPath fs' p) := by
  unfold hasPath
  exact List.any_append

theorem hasPath_removePath_self (fs : FS) (p : RPath) :
    hasPath (removePath fs p) p = false := by
  rw [Bool.eq_false_iff]
  intro h
  rw [hasPath_iff] at h
  obtain ⟨c, hc⟩ := h
  rw [removePath, List.mem_filter, decide_eq_true_eq] at hc
  exact hc.2 rfl

theorem hasPath_removePath_false {fs : FS} {p q : RPath} (h : hasPath fs p = false) :
    hasPath (removePath fs q) p = false := by
  rw [Bool.eq_false_iff]
  intro hh
  rw [hasPath_iff] at hh
  obtain ⟨c, hc⟩ := hh
  rw [removePath, List.mem_filter] at hc
  rw [Bool.eq_false_iff] at h
  exact h (hasPath_iff.mpr ⟨c, hc.1⟩)

theorem find?_filter_of_imp (f g : (RPath × String) → Bool)
    (h : ∀ x, f x = true → g x = true) :
    ∀ l : FS, (l.filter g).find? f = l.find? f := by
  intro l
  induction l with
  | nil => rfl
  | cons x t ih =>
    by_cases hg : g x = true
    · rw [List.filter_cons_of_pos hg]
      by_cases hf : f x = true
      · rw [List.find?_cons_of_pos _ hf, List.find?_cons_of_pos _ hf]
      · rw [List.find?_cons_of_neg _ hf, List.find?_cons_of_neg _ hf]
        exact ih
    · have hf : ¬ f x = true := fun hfx => hg (h x hfx)
      rw [List.filter_cons_of_neg hg, List.find?_cons_of_neg _ hf]
      exact ih

theorem lookupFS_setFile_self (fs : FS) (p : RPath) (c : String) :
    lookupFS (setFile fs p c) p = some c := by
  unfold lookupFS setFile removePath
  rw [List.find?_append]
  have h1 : (fs.filter fun e => decide (e.1 ≠ p)).find? (fun e => decide (e.1 = p)) = none := by
    rw [List.find?_eq_none]
    intro x hx
    rw [List.mem_filter, decide_eq_true_eq] at hx
    simp only [decide_eq_true_eq]
    exact hx.2
  rw [h1]
  simp [List.find?]

theorem lookupFS_setFile_ne {fs : FS} {p q : RPath} {c : String} (h : q ≠ p) :
    lookupFS (setFile fs p c) q = lookupFS fs q := by
  unfold lookupFS setFile removePath
  rw [List.find?_append]
  have h2 : List.find? (fun e => decide (e.1 = q)) [(p, c)] = none := by
    simp [List.find?, Ne.symm h]
  rw [h2]
  rw [find?_filter_of_imp (fun e => decide (e.1 = q)) (fun e => decide (e.1 ≠ p))
    (by intro x hx; rw [decide_eq_true_eq] at hx ⊢; rw [hx]; exact h)]
  cases fs.find? (fun e => decide (e.1 = q)) <;> rfl

/-! ### Helper lemmas: the archiver fold -/

theorem moveFold_data_none : ∀ (l : FS) (st : FS × FS) (p : RPath),
    hasPath st.1 p = false → hasPath (l.foldl moveStep st).1 p = false := by
  intro l
  induction l with
  | nil => intro st p h; exact h
  | cons e t ih =>
    intro st p h
    rw [List.foldl_cons]
    apply ih
    unfold moveStep
    by_cases hc : moveCond e.1 = true
    · rw [if_pos hc]
      exact hasPath_removePath_false h
    · rw [if_neg hc]
      exact h

theorem moveFold_src_stable : ∀ (l : FS) (st : FS × FS) (p : RPath),
    (∀ e ∈ l, e.1 ≠ p) →
    lookupFS (l.foldl moveStep st).2 p = lookupFS st.2 p := by
  intro l
  induction l with
  | nil => intro st p _; rfl
  | cons e t ih =>
    intro st p h
    rw [List.foldl_cons]
    rw [ih _ p (fun x hx => h x (List.mem_cons_of_mem e hx))]
    unfold moveStep
    by_cases hc : moveCond e.1 = true
    · rw [if_pos hc]
      exact lookupFS_setFile_ne (Ne.symm (h e (List.mem_cons_self e t)))
    · rw [if_neg hc]

theorem moveFold_main : ∀ (l : FS) (st : FS × FS) (p : RPath) (c : String),
    (p, c) ∈ l → moveCond p = true → (l.map Prod.fst).Nodup →
    hasPath (l.foldl moveStep st).1 p = false ∧
      lookupFS (l.foldl moveStep st).2 p = some c := by
  intro l
  induction l with
  | nil => intro st p c h; cases h
  | cons e t ih =>
    intro st p c hm hc hnd
    rw [List.map_cons, List.nodup_cons] at hnd
    rw [List.foldl_cons]
    rcases List.mem_cons.mp hm with he | ht
    · have hout : ∀ x ∈ t, x.1 ≠ p := by
        intro x hx hxp
        apply hnd.1
        rw [← he]
        exact List.mem_map.mpr ⟨x, hx, hxp⟩
      constructor
      · apply moveFold_data_none
        unfold moveStep
        rw [← he]
        rw [if_pos hc]
        exact hasPath_removePath_self st.1 p
      · rw [moveFold_src_stable t _ p hout]
        unfold moveStep
        rw [← he]
        rw [if_pos hc]
        exact lookupFS_setFile_self st.2 p c
    · exact ih _ p c ht hc hnd.2

/-! ### Helper lemmas: suffix reasoning on names -/

theorem sfx_iff {suf s : String} : sfx suf s = true ↔ suf.toList <:+ s.toList := by
  unfold sfx
  exact List.isSuffixOf_iff_suffix

theorem baseName_concat (l : RPath) (x : String) : baseName (l ++ [x]) = x := by
  unfold baseName
  rw [List.getLastD_eq_getLast?, List.getLast?_concat]
  rfl

theorem baseName_gzSibling (p : RPath) : baseName (gzSibling p) = baseName p ++ ".gz" :=
  baseName_concat _ _

theorem baseName_stripGzPath (p : RPath) :
    baseName (stripGzPath p) = strDropRight (baseName p) 3 :=
  baseName_concat _ _

theorem sfx_gz_append (x : String) : sfx ".gz" (x ++ ".gz") = true := by
  rw [sfx_iff]
  show (".gz".toList : List Char) <:+ (x ++ ".gz").data
  rw [String.data_append]
  exact ⟨x.toList, rfl⟩

theorem sfx_gz_split (ext s : String) (h : sfx (ext ++ ".gz") s = true) :
    sfx ".gz" s = true ∧ sfx ext (strDropRight s 3) = true := by
  rw [sfx_iff] at h
  rw [show (ext ++ ".gz").toList = ext.toList ++ ".gz".toList from String.data_append ext ".gz"] at h
  obtain ⟨t, ht⟩ := h
  constructor
  · rw [sfx_iff]
    exact ⟨t ++ ext.toList, by rw [List.append_assoc]; exact ht⟩
  · rw [sfx_iff]
    show ext.toList <:+ (s.toList.take (s.toList.length - 3))
    have hlen : s.toList.length - 3 = (t ++ ext.toList).length := by
      rw [← ht]
      simp [List.length_append]
      omega
    rw [hlen, ← ht, ← List.append_assoc]
    rw [show ((".gz".toList : List Char)) = ['.', 'g', 'z'] from rfl]
    rw [List.take_left]
    exact ⟨t, rfl⟩

theorem sfx_gzgz_intro {b : String} (h1 : sfx ".gz" b = true)
    (h2 : sfx ".gz" (strDropRight b 3) = true) : sfx ".gz.gz" b = true := by
  rw [sfx_iff] at h1 h2 ⊢
  obtain ⟨t, ht⟩ := h1
  have hdt : (strDropRight b 3).toList = t := by
    show (b.toList.take (b.toList.length - 3)) = t
    rw [← ht]
    have hl : (t ++ ".gz".toList).length - 3 = t.length := by
      simp [List.length_append]
    rw [hl]
    rw [show ((".gz".toList : List Char)) = ['.', 'g', 'z'] from rfl]
    exact List.take_left t _
  rw [hdt] at h2
  obtain ⟨u, hu⟩ := h2
  refine ⟨u, ?_⟩
  rw [show ((".gz.gz" : String).toList : List Char) = ".gz".toList ++ ".gz".toList from rfl]
  rw [← List.append_assoc, hu, ht]

/-! ### Helper lemmas: the compressor fold -/

theorem gzFold_written_mono (g : String → String) (now : Nat) :
    ∀ (l : GFS) (acc : GFS × List RPath) (p : RPath),
    p ∈ acc.2 → p ∈ (l.foldl (gzStep g now) acc).2 := by
  intro l
  induction l with
  | nil => intro acc p h; exact h
  | cons e t ih =>
    intro acc p h
    rw [List.foldl_cons]
    apply ih
    unfold gzStep
    by_cases hc : gzCond (baseName e.1) = true
    · rw [if_pos hc]
      exact List.mem_append_left _ h
    · rw [if_neg hc]
      exact h

theorem gzFold_written (g : String → String) (now : Nat) :
    ∀ (l : GFS) (acc : GFS × List RPath) (p : RPath) (c : String) (m : Nat),
    (p, c, m) ∈ l → gzCond (baseName p) = true →
    p ∈ (l.foldl (gzStep g now) acc).2 := by
  intro l
  induction l with
  | nil => intro acc p c m h; cases h
  | cons e t ih =>
    intro acc p c m hm hc
    rw [List.foldl_cons]
    rcases List.mem_cons.mp hm with he | ht
    · apply gzFold_written_mono
      unfold gzStep
      rw [← he]
      rw [if_pos hc]
      exact List.mem_append_right _ (List.mem_singleton.mpr rfl)
    · exact ih _ p c m ht hc

theorem gzFold_source_kept (g : String → String) (now : Nat) :
    ∀ (l : GFS) (acc : GFS × List RPath) (p : RPath) (c : String) (m : Nat),
    (p, c, m) ∈ acc.1 → sfx ".gz" (baseName p) = false →
    (p, c, m) ∈ (l.foldl (gzStep g now) acc).1 := by
  intro l
  induction l with
  | nil => intro acc p c m h _; exact h
  | cons e t ih =>
    intro acc p c m h hgz
    rw [List.foldl_cons]
    refine ih _ p c m ?_ hgz
    unfold gzStep
    by_cases hc : gzCond (baseName e.1) = true
    · rw [if_pos hc]
      unfold setG removeG
      apply List.mem_append_left
      rw [List.mem_filter]
      refine ⟨h, ?_⟩
      rw [decide_eq_true_eq]
      intro hp
      have hp' : p = gzSibling e.1 := hp
      rw [hp', baseName_gzSibling] at hgz
      rw [sfx_gz_append] at hgz
      cases hgz
    · rw [if_neg hc]
      exact h

/-! ### Claim theorems C4, C8, C10 -/

/-- Claim C4 (amended): when a file already exists at the destination
relative path in the archive, `move_sources_to_src` is not blocked: the
pre-existing destination file is silently replaced with the deployment
file's content and the source file is removed from the deployment root
(`shutil.move` over an existing plain file replaces it). -/
theorem C4_archiver_overwrites (st : FS × FS) (p : RPath) (c d : String)
    (h1 : (p, c) ∈ st.1) (h2 : moveCond p = true) (_pre : (p, d) ∈ st.2)
    (h4 : (st.1.map Prod.fst).Nodup) :
    hasPath (move_sources_to_src st).1 p = false ∧
      lookupFS (move_sources_to_src st).2 p = some c :=
  moveFold_main st.1 st p c h1 h2 h4

/-- Witness for C4: concrete instantiation of `C4_archiver_overwrites`. -/
theorem C4_archiver_overwrites_witness :
    hasPath (move_sources_to_src
        ([(["shared", "a.css"], "n")], [(["shared", "a.css"], "o")])).1
        ["shared", "a.css"] = false ∧
      lookupFS (move_sources_to_src
        ([(["shared", "a.css"], "n")], [(["shared", "a.css"], "o")])).2
        ["shared", "a.css"] = some "n" :=
  C4_archiver_overwrites ([(["shared", "a.css"], "n")], [(["shared", "a.css"], "o")])
    ["shared", "a.css"] "n" "o" (by decide) (by decide) (by decide) (by decide)

/-- Claim C8 (amended): `gzip_files` compresses every `.js`/`.css`/`.html`
file unconditionally — the sibling is regenerated even when it already
exists and is newer than the source (there is no existence or mtime check
in the code) — and it never modifies a source file (only `.gz` sibling
paths are written). -/
theorem C8_compressor_unconditional (g : String → String) (now : Nat) (fs : GFS)
    (p : RPath) (c : String) (m : Nat) (h : (p, c, m) ∈ fs) :
    (gzCond (baseName p) = true → p ∈ (gzip_files g now fs).2) ∧
    (sfx ".gz" (baseName p) = false → (p, c, m) ∈ (gzip_files g now fs).1) := by
  constructor
  · intro hc
    exact gzFold_written g now fs (fs, []) p c m h hc
  · intro hgz
    exact gzFold_source_kept g now fs (fs, []) p c m h hgz

/-- Witness for C8: concrete instantiation of `C8_compressor_unconditional`. -/
theorem C8_compressor_unconditional_witness :
    (gzCond (baseName ["b.css"]) = true →
      ["b.css"] ∈ (gzip_files (fun s => s) 9 [(["b.css"], "y", 0), (["b.css.gz"], "z", 7)]).2) ∧
    (sfx ".gz" (baseName ["b.css"]) = false →
      (["b.css"], "y", 0) ∈
        (gzip_files (fun s => s) 9 [(["b.css"], "y", 0), (["b.css.gz"], "z", 7)]).1) :=
  C8_compressor_unconditional (fun s => s) 9 [(["b.css"], "y", 0), (["b.css.gz"], "z", 7)]
    ["b.css"] "y" 0 (by decide)

/-- Claim C10: `move_sources_to_src` also archives compressed source
siblings: every `.js.gz` or `.css.gz` file outside the keep list and
outside `pages/` is moved to the archive root at its relative path, and if
the plain sibling is also present (outside the keep list), it is moved as
well, so the deployment root retains neither representation. -/
theorem C10_gz_archived (st : FS × FS) (p : RPath) (c : String)
    (h1 : (p, c) ∈ st.1)
    (hext : sfx ".js.gz" (baseName p) = true ∨ sfx ".css.gz" (baseName p) = true)
    (hk1 : decide (baseName p ∈ keepO) = false)
    (hk2 : decide (removeGzAll (baseName p) ∈ keepO) = false)
    (hpg : decide ("pages" ∈ p) = false)
    (hnd : (st.1.map Prod.fst).Nodup) :
    (hasPath (move_sources_to_src st).1 p = false ∧
      lookupFS (move_sources_to_src st).2 p = some c) ∧
    (∀ c', (stripGzPath p, c') ∈ st.1 →
      decide (strDropRight (baseName p) 3 ∈ keepO) = false →
      decide (removeGzAll (strDropRight (baseName p) 3) ∈ keepO) = false →
      hasPath (move_sources_to_src st).1 (stripGzPath p) = false) := by
  have hsplit : sfx ".gz" (baseName p) = true ∧
      (sfx ".js" (strDropRight (baseName p) 3) = true ∨
       sfx ".css" (strDropRight (baseName p) 3) = true) := by
    rcases hext with hjs | hcss
    · have := sfx_gz_split ".js" (baseName p) (by
        rw [show ((".js" : String) ++ ".gz") = ".js.gz" from rfl]; exact hjs)
      exact ⟨this.1, Or.inl this.2⟩
    · have := sfx_gz_split ".css" (baseName p) (by
        rw [show ((".css" : String) ++ ".gz") = ".css.gz" from rfl]; exact hcss)
      exact ⟨this.1, Or.inr this.2⟩
  have hmc : moveCond p = true := by
    unfold moveCond moveExtOk
    rw [hk1, hk2, hpg, hsplit.1]
    rcases hsplit.2 with hx | hx <;> rw [hx] <;> simp
  constructor
  · exact moveFold_main st.1 st p c h1 hmc hnd
  · intro c' hmem hq1 hq2
    have hnotpages : decide ("pages" ∈ stripGzPath p) = false := by
      rw [decide_eq_false_iff_not]
      unfold stripGzPath
      intro hmm
      rcases List.mem_append.mp hmm with hin | hin
      · rw [decide_eq_false_iff_not] at hpg
        apply hpg
        exact (List.dropLast_prefix p).subset hin
      · have heq : strDropRight (baseName p) 3 = "pages" :=
          (List.mem_singleton.mp hin).symm
        rcases hsplit.2 with hx | hx <;> rw [heq] at hx <;> revert hx <;> decide
    have hmcq : moveCond (stripGzPath p) = true := by
      unfold moveCond moveExtOk
      rw [baseName_stripGzPath, hq1, hq2, hnotpages]
      rcases hsplit.2 with hx | hx <;> rw [hx] <;> simp
    exact (moveFold_main st.1 st (stripGzPath p) c' hmem hmcq hnd).1

/-- Witness for C10: concrete instantiation of `C10_gz_archived`. -/
theorem C10_gz_archived_witness :
    (hasPath (move_sources_to_src
        ([(["shared", "u.js.gz"], "z"), (["shared", "u.js"], "u")], [])).1
        ["shared", "u.js.gz"] = false ∧
      lookupFS (move_sources_to_src
        ([(["shared", "u.js.gz"], "z"), (["shared", "u.js"], "u")], [])).2
        ["shared", "u.js.gz"] = some "z") ∧
    (∀ c', (stripGzPath ["shared", "u.js.gz"], c') ∈
        ([(["shared", "u.js.gz"], "z"), (["shared", "u.js"], "u")] : FS) →
      decide (strDropRight (baseName ["shared", "u.js.gz"]) 3 ∈ keepO) = false →
      decide (removeGzAll (strDropRight (baseName ["shared", "u.js.gz"]) 3) ∈ keepO) = false →
      hasPath (move_sources_to_src
        ([(["shared", "u.js.gz"], "z"), (["shared", "u.js"], "u")], [])).1
        (stripGzPath ["shared", "u.js.gz"]) = false) :=
  C10_gz_archived ([(["shared", "u.js.gz"], "z"), (["shared", "u.js"], "u")], [])
    ["shared", "u.js.gz"] "z" (by decide) (by decide) (by decide) (by decide)
    (by decide) (by decide)

/-! ### Helper lemmas: the restore folds -/

theorem restoreGz_keeps (gu : String → String) :
    ∀ (l : FS) (acc : FS) (x : RPath × String),
    x ∈ acc → x ∈ l.foldl (restoreGzStep gu) acc := by
  intro l
  induction l with
  | nil => intro acc x h; exact h
  | cons e t ih =>
    intro acc x h
    rw [List.foldl_cons]
    apply ih
    unfold restoreGzStep
    by_cases h1 : sfx ".gz" (baseName e.1) = true
    · rw [if_pos h1]
      by_cases h2 : hasPath acc (stripGzPath e.1) = true
      · rw [if_pos h2]; exact h
      · rw [if_neg h2]; exact List.mem_append_left _ h
    · rw [if_neg h1]; exact h

theorem restoreCopy_keeps :
    ∀ (l : FS) (acc : FS) (x : RPath × String),
    x ∈ acc → x ∈ l.foldl restoreCopyStep acc := by
  intro l
  induction l with
  | nil => intro acc x h; exact h
  | cons e t ih =>
    intro acc x h
    rw [List.foldl_cons]
    apply ih
    unfold restoreCopyStep
    by_cases h2 : hasPath acc e.1 = true
    · rw [if_pos h2]; exact h
    · rw [if_neg h2]; exact List.mem_append_left _ h

theorem hasPath_mono_gz (gu : String → String) :
    ∀ (l : FS) (acc : FS) (p : RPath),
    hasPath acc p = true → hasPath (l.foldl (restoreGzStep gu) acc) p = true := by
  intro l acc p h
  rw [hasPath_iff] at h ⊢
  obtain ⟨c, hc⟩ := h
  exact ⟨c, restoreGz_keeps gu l acc (p, c) hc⟩

theorem hasPath_mono_copy :
    ∀ (l : FS) (acc : FS) (p : RPath),
    hasPath acc p = true → hasPath (l.foldl restoreCopyStep acc) p = true := by
  intro l acc p h
  rw [hasPath_iff] at h ⊢
  obtain ⟨c, hc⟩ := h
  exact ⟨c, restoreCopy_keeps l acc (p, c) hc⟩

theorem restoreGz_members (gu : String → String) :
    ∀ (l : FS) (acc : FS) (x : RPath × String),
    x ∈ l.foldl (restoreGzStep gu) acc →
    x ∈ acc ∨ ∃ f ∈ l, sfx ".gz" (baseName f.1) = true ∧ x = (stripGzPath f.1, gu f.2) := by
  intro l
  induction l with
  | nil => intro acc x h; exact Or.inl h
  | cons e t ih =>
    intro acc x h
    rw [List.foldl_cons] at h
    rcases ih _ x h with hstep | ⟨f, hf, hfgz, hx⟩
    · unfold restoreGzStep at hstep
      by_cases h1 : sfx ".gz" (baseName e.1) = true
      · rw [if_pos h1] at hstep
        by_cases h2 : hasPath acc (stripGzPath e.1) = true
        · rw [if_pos h2] at hstep; exact Or.inl hstep
        · rw [if_neg h2] at hstep
          rcases List.mem_append.mp hstep with hin | hin
          · exact Or.inl hin
          · exact Or.inr ⟨e, List.mem_cons_self e t, h1, List.mem_singleton.mp hin⟩
      · rw [if_neg h1] at hstep; exact Or.inl hstep
    · exact Or.inr ⟨f, List.mem_cons_of_mem e hf, hfgz, hx⟩

theorem restoreCopy_members :
    ∀ (l : FS) (acc : FS) (x : RPath × String),
    x ∈ l.foldl restoreCopyStep acc → x ∈ acc ∨ x ∈ l := by
  intro l
  induction l with
  | nil => intro acc x h; exact Or.inl h
  | cons e t ih =>
    intro acc x h
    rw [List.foldl_cons] at h
    rcases ih _ x h with hstep | hin
    · unfold restoreCopyStep at hstep
      by_cases h2 : hasPath acc e.1 = true
      · rw [if_pos h2] at hstep; exact Or.inl hstep
      · rw [if_neg h2] at hstep
        rcases List.mem_append.mp hstep with hin | hin
        · exact Or.inl hin
        · exact Or.inr (List.mem_cons.mpr (Or.inl (List.mem_singleton.mp hin)))
    · exact Or.inr (List.mem_cons_of_mem e hin)

theorem restoreGz_ensures (gu : String → String) :
    ∀ (l : FS) (acc : FS) (e : RPath × String), e ∈ l →
    sfx ".gz" (baseName e.1) = true →
    hasPath (l.foldl (restoreGzStep gu) acc) (stripGzPath e.1) = true := by
  intro l
  induction l with
  | nil => intro acc e h; cases h
  | cons f t ih =>
    intro acc e hm hgz
    rw [List.foldl_cons]
    rcases List.mem_cons.mp hm with he | ht
    · subst he
      apply hasPath_mono_gz
      unfold restoreGzStep
      rw [if_pos hgz]
      by_cases h2 : hasPath acc (stripGzPath e.1) = true
      · rw [if_pos h2]; exact h2
      · rw [if_neg h2]
        rw [hasPath_append]
        have : hasPath [(stripGzPath e.1, gu e.2)] (stripGzPath e.1) = true := by
          rw [hasPath_iff]
          exact ⟨gu e.2, List.mem_singleton.mpr rfl⟩
        rw [this, Bool.or_true]
    · exact ih _ e ht hgz

theorem restoreCopy_ensures :
    ∀ (l : FS) (acc : FS) (e : RPath × String), e ∈ l →
    hasPath (l.foldl restoreCopyStep acc) e.1 = true := by
  intro l
  induction l with
  | nil => intro acc e h; cases h
  | cons f t ih =>
    intro acc e hm
    rw [List.foldl_cons]
    rcases List.mem_cons.mp hm with he | ht
    · subst he
      apply hasPath_mono_copy
      unfold restoreCopyStep
      by_cases h2 : hasPath acc e.1 = true
      · rw [if_pos h2]; exact h2
      · rw [if_neg h2]
        rw [hasPath_append]
        have : hasPath [e] e.1 = true := by
          rw [hasPath_iff]
          exact ⟨e.2, by simp⟩
        rw [this, Bool.or_true]
    · exact ih _ e ht

theorem restoreGz_noop (gu : String → String) :
    ∀ (l : FS) (acc : FS),
    (∀ e ∈ l, sfx ".gz" (baseName e.1) = true → hasPath acc (stripGzPath e.1) = true) →
    l.foldl (restoreGzStep gu) acc = acc := by
  intro l
  induction l with
  | nil => intro acc _; rfl
  | cons e t ih =>
    intro acc h
    rw [List.foldl_cons]
    have hstep : restoreGzStep gu acc e = acc := by
      unfold restoreGzStep
      by_cases h1 : sfx ".gz" (baseName e.1) = true
      · rw [if_pos h1, if_pos (h e (List.mem_cons_self e t) h1)]
      · rw [if_neg h1]
    rw [hstep]
    exact ih acc (fun x hx => h x (List.mem_cons_of_mem e hx))

theorem restoreCopy_noop :
    ∀ (l : FS) (acc : FS),
    (∀ e ∈ l, hasPath acc e.1 = true) →
    l.foldl restoreCopyStep acc = acc := by
  intro l
  induction l with
  | nil => intro acc _; rfl
  | cons e t ih =>
    intro acc h
    rw [List.foldl_cons]
    have hstep : restoreCopyStep acc e = acc := by
      unfold restoreCopyStep
      rw [if_pos (h e (List.mem_cons_self e t))]
    rw [hstep]
    exact ih acc (fun x hx => h x (List.mem_cons_of_mem e hx))

/-- Claim C5 (amended): the `restore_files` flow never overwrites an
already-present plain file (both of its passes are guarded by existence
checks), and — provided no file name ends in ".gz.gz" and every compressed
file in the archive sits alongside its uncompressed sibling there —
running `restore_files` twice produces the same state as running it once.
The `restore_data` flow, by contrast, overwrites existing plain files
(see the counterexample). -/
theorem C5_restore_files_amended (gu : String → String) (st : FS × FS)
    (H1 : ∀ e ∈ st.1, sfx ".gz.gz" (baseName e.1) = false)
    (H2 : ∀ e ∈ st.2, sfx ".gz" (baseName e.1) = true →
      ∃ c, (stripGzPath e.1, c) ∈ st.2) :
    (∀ p c, (p, c) ∈ st.1 → (p, c) ∈ (restore_files gu st).1) ∧
    restore_files gu (restore_files gu st) = restore_files gu st := by
  constructor
  · intro p c h
    show (p, c) ∈ st.2.foldl restoreCopyStep (st.1.foldl (restoreGzStep gu) st.1)
    exact restoreCopy_keeps _ _ _ (restoreGz_keeps gu _ _ _ h)
  · have hd2gz : ∀ e ∈ st.2.foldl restoreCopyStep (st.1.foldl (restoreGzStep gu) st.1),
        sfx ".gz" (baseName e.1) = true →
        hasPath (st.2.foldl restoreCopyStep (st.1.foldl (restoreGzStep gu) st.1))
          (stripGzPath e.1) = true := by
      intro e he hgz
      rcases restoreCopy_members _ _ _ he with hd1 | hs2
      · rcases restoreGz_members gu _ _ _ hd1 with hst | ⟨f, hf, hfgz, hx⟩
        · exact hasPath_mono_copy _ _ _ (restoreGz_ensures gu st.1 st.1 e hst hgz)
        · exfalso
          have hb : baseName e.1 = strDropRight (baseName f.1) 3 := by
            rw [hx]
            exact baseName_stripGzPath f.1
          rw [hb] at hgz
          have : sfx ".gz.gz" (baseName f.1) = true := sfx_gzgz_intro hfgz hgz
          rw [H1 f hf] at this
          cases this
      · obtain ⟨c0, hc0⟩ := H2 e hs2 hgz
        exact restoreCopy_ensures st.2 _ (stripGzPath e.1, c0) hc0
    have hd2copy : ∀ e ∈ st.2,
        hasPath (st.2.foldl restoreCopyStep (st.1.foldl (restoreGzStep gu) st.1)) e.1 = true :=
      fun e he => restoreCopy_ensures st.2 _ e he
    show (st.2.foldl restoreCopyStep
        ((st.2.foldl restoreCopyStep (st.1.foldl (restoreGzStep gu) st.1)).foldl
          (restoreGzStep gu)
          (st.2.foldl restoreCopyStep (st.1.foldl (restoreGzStep gu) st.1))), st.2)
      = restore_files gu st
    rw [restoreGz_noop gu _ _ hd2gz]
    rw [restoreCopy_noop st.2 _ hd2copy]
    rfl

/-- Witness for C5: concrete instantiation of `C5_restore_files_amended`. -/
theorem C5_restore_files_amended_witness :
    (∀ p c, (p, c) ∈ ([(["a.js"], "p")] : FS) →
      (p, c) ∈ (restore_files (fun s => s) ([(["a.js"], "p")], ([] : FS))).1) ∧
    restore_files (fun s => s) (restore_files (fun s => s) ([(["a.js"], "p")], ([] : FS)))
      = restore_files (fun s => s) ([(["a.js"], "p")], ([] : FS)) :=
  C5_restore_files_amended (fun s => s) ([(["a.js"], "p")], ([] : FS))
    (by decide) (by intro e he hgz; exact absurd he (List.not_mem_nil e))

/-! ### Helper lemmas: Python strip -/

theorem head?_dropWhile {α} (p : α → Bool) : ∀ (l : List α) (c : α),
    (l.dropWhile p).head? = some c → p c = false := by
  intro l
  induction l with
  | nil => intro c h; cases h
  | cons a t ih =>
    intro c h
    by_cases hp : p a = true
    · rw [List.dropWhile_cons_of_pos hp] at h
      exact ih c h
    · rw [List.dropWhile_cons_of_neg hp] at h
      have ha : a = c := by simpa using h
      rw [← ha]
      exact Bool.eq_false_iff.mpr hp

theorem pstrip_cons_ws {w : Char} (hw : isPySpace w = true) (s : List Char) :
    pstrip (w :: s) = pstrip s := by
  unfold pstrip lstrip
  rw [List.dropWhile_cons_of_pos hw]

theorem rstrip_concat_ws {w : Char} (hw : isPySpace w = true) (s : List Char) :
    rstrip (s ++ [w]) = rstrip s := by
  unfold rstrip
  rw [List.reverse_append, show ([w] : List Char).reverse = [w] from rfl,
    List.singleton_append, List.dropWhile_cons_of_pos hw]

theorem pstrip_concat_ws {w : Char} (hw : isPySpace w = true) (s : List Char) :
    pstrip (s ++ [w]) = pstrip s := by
  unfold pstrip lstrip
  rw [List.dropWhile_append]
  by_cases he : (s.dropWhile isPySpace).isEmpty = true
  · rw [if_pos he]
    have hw1 : List.dropWhile isPySpace [w] = [] := by
      rw [List.dropWhile_cons_of_pos hw]; rfl
    rw [hw1]
    rw [List.isEmpty_iff] at he
    rw [he]
  · rw [if_neg he]
    exact rstrip_concat_ws hw _

theorem rstrip_head? (m : List Char) (c : Char) (h : (rstrip m).head? = some c) :
    m.head? = some c := by
  have hpre : rstrip m <+: m := by
    obtain ⟨t, ht⟩ := List.dropWhile_suffix (l := m.reverse) (p := isPySpace)
    refine ⟨t.reverse, ?_⟩
    show (m.reverse.dropWhile isPySpace).reverse ++ t.reverse = m
    rw [← List.reverse_append, ht, List.reverse_reverse]
  obtain ⟨t, ht⟩ := hpre
  rw [← ht]
  cases hm : rstrip m with
  | nil => rw [hm] at h; cases h
  | cons a r =>
    rw [hm] at h
    simpa using h

theorem pstrip_head_not_ws {s : List Char} {c : Char} (h : (pstrip s).head? = some c) :
    isPySpace c = false := by
  unfold pstrip at h
  exact head?_dropWhile isPySpace s c (rstrip_head? (lstrip s) c h)

theorem pstrip_getLast_not_ws {s : List Char} {c : Char}
    (h : (pstrip s).getLast? = some c) : isPySpace c = false := by
  unfold pstrip rstrip at h
  rw [List.getLast?_reverse] at h
  exact head?_dropWhile isPySpace _ c h

/-! ### Helper lemmas: substring membership -/

theorem hasSub_iff {pat : List Char} : ∀ {s : List Char}, hasSub pat s = true ↔ pat <:+: s := by
  intro s
  induction s with
  | nil =>
    rw [show hasSub pat [] = pat.isEmpty from rfl]
    rw [List.infix_nil]
    exact List.isEmpty_iff
  | cons c t ih =>
    rw [show hasSub pat (c :: t) = (pat.isPrefixOf (c :: t) || hasSub pat t) from rfl]
    rw [Bool.or_eq_true, ih, List.isPrefixOf_iff_prefix]
    exact (List.infix_cons_iff).symm

theorem sanitize_id {n : List Char} (h1 : hasSub ['.', '.'] n = false)
    (h2 : hasSub [':'] n = false) : sanitize n = n := by
  unfold sanitize
  rw [h1, h2]
  rfl

/-! ### Helper lemmas: the marker scanner -/

theorem matchCapture_cons (c : Char) (s : List Char) :
    matchCapture (c :: s) =
      if c = ' ' ∧ s.take 2 = ['*', '/'] then some ([], s.drop 2)
      else if c = '\n' then none
      else (matchCapture s).map (fun q => (c :: q.1, q.2)) := rfl

theorem reSplitAux_succ (k : Nat) (s : List Char) :
    reSplitAux (k + 1) s =
      match findMarker s with
      | none => [s]
      | some (pre, cap, rem) => pre :: cap :: reSplitAux k rem := rfl

theorem matchCapture_append : ∀ (n r : List Char),
    '\n' ∉ n → hasSub closePat n = false →
    matchCapture (n ++ closePat ++ r) = some (n, r) := by
  intro n
  induction n with
  | nil =>
    intro r _ _
    show matchCapture (' ' :: '*' :: '/' :: r) = some ([], r)
    rw [matchCapture_cons]
    rw [if_pos ⟨rfl, rfl⟩]
    rfl
  | cons c n' ih =>
    intro r h1 h2
    rw [List.cons_append, List.cons_append]
    rw [matchCapture_cons]
    have hcond : ¬ (c = ' ' ∧ (n' ++ closePat ++ r).take 2 = ['*', '/']) := by
      rintro ⟨hc, htake⟩
      rcases n' with _ | ⟨a, _ | ⟨b, n''⟩⟩
      · have hx : ([' ', '*'] : List Char) = ['*', '/'] := htake
        simp at hx
      · have hx : ([a, ' '] : List Char) = ['*', '/'] := htake
        simp at hx
      · have hx : ([a, b] : List Char) = ['*', '/'] := htake
        simp at hx
        obtain ⟨ha, hb⟩ := hx
        subst hc; subst ha; subst hb
        have hpre : closePat <+: (' ' :: '*' :: '/' :: n'') := ⟨n'', rfl⟩
        have hinf := hasSub_iff.mpr hpre.isInfix
        rw [h2] at hinf
        exact Bool.false_ne_true hinf
    rw [if_neg hcond]
    have hne : ¬ (c = '\n') := fun hc => h1 (by rw [hc]; exact List.mem_cons_self _ _)
    rw [if_neg hne]
    have h2' : hasSub closePat n' = false := by
      have heq : hasSub closePat (c :: n')
          = (closePat.isPrefixOf (c :: n') || hasSub closePat n') := rfl
      rw [heq, Bool.or_eq_false_iff] at h2
      exact h2.2
    rw [ih r (fun hm => h1 (List.mem_cons_of_mem c hm)) h2']
    rfl

theorem tryMarker_openPat (s : List Char) :
    tryMarker ('/' :: '*' :: ' ' :: s) = matchCapture s := by
  unfold tryMarker
  rw [if_pos (show ('/' :: '*' :: ' ' :: s).take 3 = openPat from rfl)]
  rfl

theorem tryMarker_none_of_not_prefix {s : List Char} (h : ¬ openPat <+: s) :
    tryMarker s = none := by
  unfold tryMarker
  have h' : ¬ (s.take 3 = openPat) := by
    intro habs
    apply h
    rw [List.prefix_iff_eq_take, show openPat.length = 3 from rfl]
    exact habs.symm
  rw [if_neg h']

theorem findMarker_cons_eq (c : Char) (s : List Char) :
    findMarker (c :: s) =
      match tryMarker (c :: s) with
      | some (cap, rem) => some ([], cap, rem)
      | none =>
        match findMarker s with
        | some (pre, cap, rem) => some (c :: pre, cap, rem)
        | none => none := rfl

theorem findMarker_cons_some {c : Char} {s cap rem : List Char}
    (h : tryMarker (c :: s) = some (cap, rem)) :
    findMarker (c :: s) = some ([], cap, rem) := by
  rw [findMarker_cons_eq, h]

theorem findMarker_cons_none (c : Char) (s : List Char) (h : tryMarker (c :: s) = none) :
    findMarker (c :: s) = (findMarker s).map (fun q => (c :: q.1, q.2.1, q.2.2)) := by
  rw [findMarker_cons_eq, h]
  cases hf : findMarker s with
  | none => rfl
  | some t => rcases t with ⟨pre, cap, rem⟩; rfl

theorem findMarker_marker_front (n r : List Char)
    (h1 : '\n' ∉ n) (h2 : hasSub closePat n = false) :
    findMarker ('/' :: '*' :: ' ' :: (n ++ closePat ++ r)) = some ([], n, r) :=
  findMarker_cons_some (by rw [tryMarker_openPat]; exact matchCapture_append n r h1 h2)

theorem openPat_prefix_head {c : Char} {s : List Char} (h : openPat <+: (c :: s)) :
    c = '/' := by
  obtain ⟨t, ht⟩ := h
  have hx := congrArg List.head? ht
  simp [openPat] at hx
  exact hx.symm

theorem openPat_not_prefix_newline (l m : List Char) (h : openPat <+: (l ++ '\n' :: m)) :
    openPat <+: l := by
  obtain ⟨t, ht⟩ := h
  rcases l with _ | ⟨a, _ | ⟨b, _ | ⟨d, l'⟩⟩⟩
  · exfalso
    have hx : ('/' : Char) :: '*' :: ' ' :: t = '\n' :: m := ht
    simp at hx
  · exfalso
    have hx : ('/' : Char) :: '*' :: ' ' :: t = a :: '\n' :: m := ht
    simp at hx
  · exfalso
    have hx : ('/' : Char) :: '*' :: ' ' :: t = a :: b :: '\n' :: m := ht
    simp at hx
  · have hx : ('/' : Char) :: '*' :: ' ' :: t = a :: b :: d :: (l' ++ '\n' :: m) := ht
    simp at hx
    obtain ⟨ha, hb, hd, -⟩ := hx
    subst ha; subst hb; subst hd
    exact ⟨l', rfl⟩

theorem findMarker_append (p s : List Char)
    (hp : ∀ i, i < p.length → ¬ openPat <+: (p.drop i ++ s)) :
    findMarker (p ++ s) = (findMarker s).map (fun t => (p ++ t.1, t.2.1, t.2.2)) := by
  induction p with
  | nil =>
    simp only [List.nil_append]
    cases hf : findMarker s with
    | none => rfl
    | some t => rcases t with ⟨pre, cap, rem⟩; rfl
  | cons c p' ih =>
    rw [List.cons_append]
    have htm : tryMarker (c :: (p' ++ s)) = none := by
      apply tryMarker_none_of_not_prefix
      have h0 := hp 0 (by simp)
      simpa using h0
    rw [findMarker_cons_none _ _ htm]
    rw [ih (fun i hi => by
      have hx := hp (i + 1) (by simpa using Nat.succ_lt_succ hi)
      simpa [List.drop_succ_cons] using hx)]
    cases hf : findMarker s with
    | none => rfl
    | some t => rcases t with ⟨pre, cap, rem⟩; rfl

theorem findMarker_eq_none : ∀ (s : List Char),
    (∀ i, ¬ openPat <+: s.drop i) → findMarker s = none := by
  intro s
  induction s with
  | nil => intro _; rfl
  | cons c t ih =>
    intro h
    have htm : tryMarker (c :: t) = none :=
      tryMarker_none_of_not_prefix (by have h0 := h 0; simpa using h0)
    rw [findMarker_cons_none _ _ htm]
    rw [ih (fun i => by have hx := h (i + 1); simpa [List.drop_succ_cons] using hx)]
    rfl

theorem no_open_in_drop {c : List Char} (hc : hasSub openPat c = false) (j : Nat) :
    ¬ openPat <+: c.drop j := by
  intro habs
  have h3 : openPat <:+: c := habs.isInfix.trans (List.drop_suffix j c).isInfix
  have hx := hasSub_iff.mpr h3
  rw [hc] at hx
  exact Bool.false_ne_true hx

theorem no_open_in_content {c : List Char} (hc : hasSub openPat c = false)
    (j : Nat) (s : List Char) : ¬ openPat <+: (c.drop j ++ '\n' :: s) := by
  intro habs
  exact no_open_in_drop hc j (openPat_not_prefix_newline _ _ habs)

theorem findMarker_eq_none_newline {c : List Char} (hc : hasSub openPat c = false) :
    findMarker ('\n' :: c) = none := by
  apply findMarker_eq_none
  intro i
  cases i with
  | zero =>
    intro habs
    exact absurd (openPat_prefix_head habs) (by decide)
  | succ j =>
    rw [List.drop_succ_cons]
    exact no_open_in_drop hc j

theorem drop_append_le {α} : ∀ (l₁ l₂ : List α) (n : Nat), n ≤ l₁.length →
    (l₁ ++ l₂).drop n = l₁.drop n ++ l₂ := by
  intro l₁
  induction l₁ with
  | nil =>
    intro l₂ n h
    have h0 : n = 0 := Nat.le_zero.mp (by simpa using h)
    subst h0
    rfl
  | cons a t ih =>
    intro l₂ n h
    cases n with
    | zero => rfl
    | succ m =>
      rw [List.cons_append, List.drop_succ_cons, List.drop_succ_cons]
      exact ih l₂ m (by simpa using h)

/-! ### Helper lemmas: splitting a generated bundle -/

theorem cssEntry_append (n c B : List Char) :
    cssEntry n c ++ B
      = '\n' :: ('/' :: '*' :: ' ' :: (n ++ closePat ++ '\n' :: (c ++ B))) := by
  simp [cssEntry, openPat, List.append_assoc]

theorem cssEntry_length (n c : List Char) :
    (cssEntry n c).length = n.length + c.length + 8 := by
  simp only [cssEntry, openPat, closePat, List.length_cons, List.length_append,
    List.length_nil]
  omega

theorem bundle_assets_length_ge : ∀ fs : List (List Char × List Char),
    8 * fs.length ≤ (bundle_assets fs).length := by
  intro fs
  induction fs with
  | nil => simp
  | cons f fs ih =>
    show 8 * (fs.length + 1) ≤ (cssEntry f.1 f.2 ++ bundle_assets fs).length
    rw [List.length_append, cssEntry_length]
    omega

theorem findMarker_cssEntry (n c B : List Char)
    (h1 : '\n' ∉ n) (h2 : hasSub closePat n = false) :
    findMarker (cssEntry n c ++ B) = some (['\n'], n, '\n' :: (c ++ B)) := by
  rw [cssEntry_append]
  have htm : tryMarker ('\n' :: ('/' :: '*' :: ' ' :: (n ++ closePat ++ '\n' :: (c ++ B))))
      = none := by
    apply tryMarker_none_of_not_prefix
    intro habs
    exact absurd (openPat_prefix_head habs) (by decide)
  rw [findMarker_cons_none _ _ htm]
  rw [findMarker_marker_front n _ h1 h2]
  rfl

theorem findMarker_content_marker (c n d B : List Char)
    (hc : hasSub openPat c = false) (hn1 : '\n' ∉ n) (hn2 : hasSub closePat n = false) :
    findMarker ('\n' :: (c ++ (cssEntry n d ++ B)))
      = some ('\n' :: (c ++ ['\n']), n, '\n' :: (d ++ B)) := by
  have hshape : '\n' :: (c ++ (cssEntry n d ++ B))
      = ('\n' :: (c ++ ['\n'])) ++ ('/' :: '*' :: ' ' :: (n ++ closePat ++ '\n' :: (d ++ B))) := by
    rw [cssEntry_append]
    simp [List.append_assoc]
  rw [hshape]
  rw [findMarker_append _ _ ?hp]
  case hp =>
    intro i hi habs
    cases i with
    | zero =>
      rw [List.drop_zero, List.cons_append] at habs
      exact absurd (openPat_prefix_head habs) (by decide)
    | succ j =>
      rw [List.drop_succ_cons] at habs
      have hj : j ≤ c.length := by
        rw [List.length_cons, List.length_append] at hi
        simp at hi
        omega
      rw [drop_append_le c ['\n'] j hj] at habs
      rw [List.append_assoc, List.singleton_append] at habs
      exact no_open_in_content hc j _ habs
  rw [findMarker_marker_front n _ hn1 hn2]
  simp

theorem reSplitAux_tail : ∀ (fs : List (List Char × List Char)) (c : List Char) (k : Nat),
    fs.length < k →
    (∀ q ∈ fs, '\n' ∉ q.1 ∧ hasSub closePat q.1 = false ∧ hasSub openPat q.2 = false) →
    hasSub openPat c = false →
    reSplitAux k ('\n' :: (c ++ bundle_assets fs)) = tailSegs c fs := by
  intro fs
  induction fs with
  | nil =>
    intro c k hk _ hc
    cases k with
    | zero => omega
    | succ k' =>
      rw [show bundle_assets [] = ([] : List Char) from rfl, List.append_nil]
      rw [reSplitAux_succ]
      rw [findMarker_eq_none_newline hc]
      rfl
  | cons g gs ih =>
    intro c k hk hall hc
    obtain ⟨hn1, hn2, hcg⟩ := hall g (List.mem_cons_self _ _)
    cases k with
    | zero => exact absurd hk (by omega)
    | succ k' =>
      rw [reSplitAux_succ]
      rw [show bundle_assets (g :: gs) = cssEntry g.1 g.2 ++ bundle_assets gs from rfl]
      rw [findMarker_content_marker c g.1 g.2 (bundle_assets gs) hc hn1 hn2]
      show ('\n' :: (c ++ ['\n'])) :: g.1 :: reSplitAux k' ('\n' :: (g.2 ++ bundle_assets gs))
          = tailSegs c (g :: gs)
      rw [ih g.2 k' (Nat.lt_of_succ_lt_succ hk)
        (fun q hq => hall q (List.mem_cons_of_mem g hq)) hcg]
      rfl

theorem tailSegs_length : ∀ (fs : List (List Char × List Char)) (c : List Char),
    (tailSegs c fs).length = 2 * fs.length + 1 := by
  intro fs
  induction fs with
  | nil => intro c; rfl
  | cons g gs ih =>
    intro c
    show (('\n' :: (c ++ ['\n'])) :: g.1 :: tailSegs g.2 gs).length = 2 * (g :: gs).length + 1
    rw [List.length_cons, List.length_cons, ih g.2, List.length_cons]
    omega

theorem reSplit_bundle (f : List Char × List Char) (fs : List (List Char × List Char))
    (hall : ∀ q ∈ f :: fs, goodEntry q) :
    reSplit (bundle_assets (f :: fs)) = ['\n'] :: f.1 :: tailSegs f.2 fs := by
  obtain ⟨⟨-, hn1, hn2, -, -⟩, hcf⟩ := hall f (List.mem_cons_self _ _)
  have hlen : fs.length + 1 < (bundle_assets (f :: fs)).length := by
    have h1 := bundle_assets_length_ge fs
    have h2 : (bundle_assets (f :: fs)).length
        = (cssEntry f.1 f.2).length + (bundle_assets fs).length := by
      rw [show bundle_assets (f :: fs) = cssEntry f.1 f.2 ++ bundle_assets fs from rfl]
      exact List.length_append _ _
    rw [h2, cssEntry_length]
    omega
  unfold reSplit
  cases hk : (bundle_assets (f :: fs)).length with
  | zero => rw [hk] at hlen; omega
  | succ k' =>
    rw [hk] at hlen
    rw [reSplitAux_succ]
    rw [show bundle_assets (f :: fs) = cssEntry f.1 f.2 ++ bundle_assets fs from rfl]
    rw [findMarker_cssEntry f.1 f.2 _ hn1 hn2]
    show ['\n'] :: f.1 :: reSplitAux k' ('\n' :: (f.2 ++ bundle_assets fs))
        = ['\n'] :: f.1 :: tailSegs f.2 fs
    rw [reSplitAux_tail fs f.2 k' (by omega) (fun q hq => by
      obtain ⟨⟨-, a1, a2, -, -⟩, a3⟩ := hall q (List.mem_cons_of_mem f hq)
      exact ⟨a1, a2, a3⟩) hcf]

theorem entries_map : ∀ (fs : List (List Char × List Char)) (f : List Char × List Char),
    (∀ q ∈ f :: fs, goodEntry q) →
    (collectEntries (f.1 :: tailSegs f.2 fs)).map
      (fun q => (sanitize (pstrip q.1), pstrip q.2 ++ ['\n']))
      = (f :: fs).map (fun q => (q.1, pstrip q.2 ++ ['\n'])) := by
  intro fs
  induction fs with
  | nil =>
    intro f hall
    obtain ⟨⟨hstrip, -, -, hdd, hcol⟩, -⟩ := hall f (List.mem_cons_self _ _)
    show [(sanitize (pstrip f.1), pstrip ('\n' :: f.2) ++ ['\n'])]
        = [(f.1, pstrip f.2 ++ ['\n'])]
    rw [hstrip, sanitize_id hdd hcol, pstrip_cons_ws (by decide)]
  | cons g gs ih =>
    intro f hall
    obtain ⟨⟨hstrip, -, -, hdd, hcol⟩, -⟩ := hall f (List.mem_cons_self _ _)
    show (sanitize (pstrip f.1), pstrip ('\n' :: (f.2 ++ ['\n'])) ++ ['\n'])
          :: (collectEntries (g.1 :: tailSegs g.2 gs)).map
            (fun q => (sanitize (pstrip q.1), pstrip q.2 ++ ['\n']))
        = (f.1, pstrip f.2 ++ ['\n']) :: (g :: gs).map (fun q => (q.1, pstrip q.2 ++ ['\n']))
    rw [hstrip, sanitize_id hdd hcol]
    rw [show pstrip ('\n' :: (f.2 ++ ['\n'])) = pstrip f.2 from by
      rw [pstrip_cons_ws (by decide), pstrip_concat_ws (by decide)]]
    rw [ih g (fun q hq => hall q (List.mem_cons_of_mem f hq))]

/-- Claim C3 (amended): bundling a set of files and unbundling the result
reconstructs exactly the original file names (no extra files), and each
reconstructed content is the original content with leading and trailing
whitespace stripped plus exactly one trailing newline — not merely a
trailing-newline normalization.  The hypotheses say the names carry no
whitespace, newline, closing-marker syntax or characters the sanitizer
rewrites, and the contents do not contain the marker-opening syntax. -/
theorem C3_roundtrip_amended (files : List (List Char × List Char))
    (hne : files ≠ []) (hall : ∀ q ∈ files, goodEntry q) :
    unbundle (bundle_assets files) = files.map (fun q => (q.1, pstrip q.2 ++ ['\n'])) := by
  cases files with
  | nil => exact absurd rfl hne
  | cons f fs =>
    unfold unbundle
    rw [reSplit_bundle f fs hall]
    have hlen3 : ¬ ((['\n'] :: f.1 :: tailSegs f.2 fs).length < 3) := by
      rw [List.length_cons, List.length_cons, tailSegs_length]
      omega
    rw [if_neg hlen3]
    show (collectEntries (f.1 :: tailSegs f.2 fs)).map
        (fun q => (sanitize (pstrip q.1), pstrip q.2 ++ ['\n']))
      = (f :: fs).map (fun q => (q.1, pstrip q.2 ++ ['\n']))
    exact entries_map fs f hall

/-- Witness for C3: concrete instantiation of `C3_roundtrip_amended`. -/
theorem C3_roundtrip_amended_witness :
    (([("css/a.css".toList, "body".toList)] : List (List Char × List Char)) ≠ [] ∧
      ∀ q ∈ [("css/a.css".toList, "body".toList)], goodEntry q) ∧
    unbundle (bundle_assets [("css/a.css".toList, "body".toList)])
      = [("css/a.css".toList, "body\n".toList)] :=
  ⟨⟨by decide, by decide⟩,
    (C3_roundtrip_amended [("css/a.css".toList, "body".toList)]
      (by decide) (by decide)).trans (by decide)⟩

/-- Claim C3 counterexample: for a CSS file whose content begins with a
space, the reconstruction differs from the original by more than a single
trailing-newline normalization — the leading space is lost.  The input
contains no marker syntax, so the claim's "exact round trip" clause fails
too. -/
theorem C3_counterexample :
    unbundle (bundle_assets [("css/a.css".toList, " x".toList)])
      = [("css/a.css".toList, "x\n".toList)] ∧
    ("x\n".toList : List Char) ≠ " x".toList ∧
    ("x\n".toList : List Char) ≠ " x\n".toList := by decide

/-- Claim C9 (amended): every file the Unbundler writes has content equal
to the parsed segment stripped of leading and trailing whitespace plus
exactly one trailing newline; hence the content ends in exactly one
newline (the character before it, if any, is not whitespace), and it
begins with whitespace only in the degenerate case of a whitespace-only
segment, where the whole file is a single newline. -/
theorem C9_written_content (b : List Char) (w : List Char × List Char)
    (hw : w ∈ unbundle b) :
    (∃ seg, w.2 = pstrip seg ++ ['\n']) ∧
    w.2.getLast? = some '\n' ∧
    (∀ c, w.2.dropLast.getLast? = some c → isPySpace c = false) ∧
    (∀ c, w.2.head? = some c → isPySpace c = true → w.2 = ['\n']) := by
  unfold unbundle at hw
  by_cases hl : (reSplit b).length < 3
  · rw [if_pos hl] at hw
    cases hw
  · rw [if_neg hl] at hw
    rw [List.mem_map] at hw
    obtain ⟨q, hq, hwq⟩ := hw
    have hw2 : w.2 = pstrip q.2 ++ ['\n'] := by rw [← hwq]
    refine ⟨⟨q.2, hw2⟩, ?_, ?_, ?_⟩
    · rw [hw2]
      exact List.getLast?_concat _
    · intro c hc
      rw [hw2, List.dropLast_concat] at hc
      exact pstrip_getLast_not_ws hc
    · intro c hc hcs
      rw [hw2] at hc ⊢
      cases hp : pstrip q.2 with
      | nil => rfl
      | cons a r =>
        rw [hp] at hc
        have ha : a = c := by simpa using hc
        have hnw := pstrip_head_not_ws (s := q.2) (c := a) (by rw [hp]; rfl)
        rw [ha] at hnw
        rw [hnw] at hcs
        exact absurd hcs (by decide)

/-- Witness for C9: concrete instantiation of `C9_written_content`. -/
theorem C9_written_content_witness :
    (("a.css".toList, "hello\n".toList) ∈ unbundle ("/* a.css */\nhello\n".toList)) ∧
    ((∃ seg, ("hello\n".toList : List Char) = pstrip seg ++ ['\n']) ∧
      ("hello\n".toList : List Char).getLast? = some '\n' ∧
      (∀ c, ("hello\n".toList : List Char).dropLast.getLast? = some c → isPySpace c = false) ∧
      (∀ c, ("hello\n".toList : List Char).head? = some c → isPySpace c = true →
        ("hello\n".toList : List Char) = ['\n'])) :=
  ⟨by decide, C9_written_content ("/* a.css */\nhello\n".toList)
    ("a.css".toList, "hello\n".toList) (by decide)⟩
